import Mathlib

/-!
# Verification of the deep-omit utility of `cvpcasada/utils`

This file embeds, as executable Lean definitions, the two implementations of
the deep key-omission utility of the repository:

* `DeepOmitTs._deepOmit` — the helper `_deepOmit` of `src/deep-omit.ts`;
* `Remeda._deepOmit` — the helper `_deepOmit` of `src/remeda/index.ts`.

JavaScript runtime values are modelled by the inductive type `Value`:
an ordered sequence (`varr`), a keyed mapping with string keys in insertion
order (`vobj`, JavaScript objects keep insertion order for string keys and
`Object.entries` lists them in that order), and scalars (null, undefined,
booleans, numbers, strings).  A key filter, which at the JavaScript level is
itself a value (an array of key strings), is embedded by `keysArr`.

Both source helpers take `(value, target)` untyped; the embedding keeps that
shape (`Value → Value → Value`), which is essential because both source
files swap the two arguments in the recursive call of their array branch
(`_deepOmit(target, value[index])` resp. `_deepOmit(target, elem)`), so the
key filter flows into the `value` position.
-/

/-- A JavaScript runtime value, restricted to the data model of the spec:
scalars, ordered sequences, and keyed mappings with string keys kept in
insertion order. -/
inductive Value where
  | vnull : Value
  | vundef : Value
  | vbool : Bool → Value
  | vnum : Int → Value
  | vstr : String → Value
  | varr : List Value → Value
  | vobj : List (String × Value) → Value

/-- A key filter `K`, as the JavaScript value actually passed to the
functions: an array of key strings. -/
def keysArr (K : List String) : Value :=
  Value.varr (K.map Value.vstr)

theorem sizeOf_lt_of_mem_list {v : Value} {l : List Value} (h : v ∈ l) :
    sizeOf v < sizeOf l := by
  induction l with
  | nil => cases h
  | cons a l ih =>
    rcases List.mem_cons.mp h with rfl | h
    · simp only [List.cons.sizeOf_spec]; omega
    · have := ih h; simp only [List.cons.sizeOf_spec]; omega

theorem sizeOf_snd_lt_of_mem_entries {p : String × Value}
    {l : List (String × Value)} (h : p ∈ l) : sizeOf p.2 < sizeOf l := by
  induction l with
  | nil => cases h
  | cons a l ih =>
    rcases List.mem_cons.mp h with rfl | h
    · rcases p with ⟨k, v⟩
      simp only [List.cons.sizeOf_spec, Prod.mk.sizeOf_spec]; omega
    · have := ih h; simp only [List.cons.sizeOf_spec]; omega

namespace DeepOmitTs

/-! `_deepOmit` of `src/deep-omit.ts`:

```ts
function _deepOmit<T>(value: T, target: PropertyKey[]) {
  if (Array.isArray(value)) {
    let collect: unknown[] = [];
    for (let index = 0; index < value.length; index++) {
      collect.push(_deepOmit(target, value[index]));
    }
    return collect;
  } else if (typeof value === "object" && value !== null) {
    let collect: { [key: string]: unknown } = {};
    for (let [key, entryValue] of Object.entries(value)) {
      collect[key] = _deepOmit(entryValue as T, target);
    }
    return collect;
  } else {
    return value;
  }
}
```

The array loop is mirrored by `_deepOmitArr` (note the swapped arguments of
the recursive call, exactly as in the source) and the `Object.entries` loop
by `_deepOmitObj`.  No key is ever removed: the object branch copies every
entry. -/

mutual

/-- The dispatch of `_deepOmit` of `src/deep-omit.ts`: array branch, then
object branch, else scalar passthrough. -/
def _deepOmit (value target : Value) : Value :=
  match value with
  | .varr es => .varr (_deepOmitArr es target)
  | .vobj entries => .vobj (_deepOmitObj entries target)
  | v => v
termination_by sizeOf value + sizeOf target
decreasing_by
  · simp only [Value.varr.sizeOf_spec]; omega
  · simp only [Value.vobj.sizeOf_spec]; omega

/-- The `for (let index = 0; ...) collect.push(_deepOmit(target, value[index]))`
loop of the array branch. -/
def _deepOmitArr (es : List Value) (target : Value) : List Value :=
  match es with
  | [] => []
  | e :: rest => _deepOmit target e :: _deepOmitArr rest target
termination_by sizeOf es + sizeOf target
decreasing_by
  · simp only [List.cons.sizeOf_spec]; omega
  · simp only [List.cons.sizeOf_spec]; omega

/-- The `for (let [key, entryValue] of Object.entries(value))` loop of the
object branch. -/
def _deepOmitObj (entries : List (String × Value)) (target : Value) :
    List (String × Value) :=
  match entries with
  | [] => []
  | (k, v) :: rest => (k, _deepOmit v target) :: _deepOmitObj rest target
termination_by sizeOf entries + sizeOf target
decreasing_by
  · simp only [List.cons.sizeOf_spec, Prod.mk.sizeOf_spec]; omega
  · simp only [List.cons.sizeOf_spec]; omega

end

end DeepOmitTs

namespace Remeda

/-- The element list of `new Set(x)` (JavaScript `Set` constructor iterates
its argument): an array yields its elements, a string yields its characters
as one-character strings, `null`/`undefined` yield the empty set, and any
other value is not iterable, so the constructor throws a `TypeError`.
Duplicate elements are kept; they do not affect membership tests. -/
def jsSetElems : Value → Except String (List Value)
  | .varr es => .ok es
  | .vstr s => .ok (s.data.map fun c => Value.vstr c.toString)
  | .vnull => .ok []
  | .vundef => .ok []
  | _ => .error "TypeError: value is not iterable"

/-- `set.has(name)` for a string key `name`, under SameValueZero: only a
string element equal to `name` matches. -/
def setHasKey (set : List Value) (name : String) : Bool :=
  set.any fun x =>
    match x with
    | .vstr s => s == name
    | _ => false

/-- The entry-list of `omit(value, names)` from remeda v1, applied to the
entries of `value`:

```ts
function _omit<T extends object, K extends keyof T>(object: T, names: ReadonlyArray<K>) {
  const set = new Set(names as Array<string>);
  return Object.entries(object).reduce<Record<string, unknown>>(
    (acc, [name, value]) => {
      if (!set.has(name)) { acc[name] = value; }
      return acc;
    }, {});
}
```

The reduce keeps, in order, exactly the entries whose key is not in the set.
`names` here is whatever `_deepOmit` passes as `target`, which after the
swapped array-branch recursion need not be an array. -/
def omitEntries (entries : List (String × Value)) (target : Value) :
    Except String (List (String × Value)) :=
  match jsSetElems target with
  | .error e => .error e
  | .ok set => .ok (entries.filter fun p => !setHasKey set p.1)

theorem sizeOf_filter_le (p : String × Value → Bool)
    (l : List (String × Value)) : sizeOf (l.filter p) ≤ sizeOf l := by
  induction l with
  | nil => simp
  | cons a l ih =>
    by_cases h : p a
    · rw [List.filter_cons_of_pos h]
      simp only [List.cons.sizeOf_spec]; omega
    · rw [List.filter_cons_of_neg h]
      simp only [List.cons.sizeOf_spec]; omega

theorem omitEntries_sizeOf_le {entries kept : List (String × Value)}
    {target : Value} (h : omitEntries entries target = .ok kept) :
    sizeOf kept ≤ sizeOf entries := by
  unfold omitEntries at h
  cases hs : jsSetElems target with
  | error e => rw [hs] at h; cases h
  | ok set =>
    rw [hs] at h
    cases h
    exact sizeOf_filter_le _ _

/-! `_deepOmit` of `src/remeda/index.ts`:

```ts
function _deepOmit<T>(value: T, target: readonly (keyof T)[]): unknown {
  if (Array.isArray(value)) {
    return value.map((elem) => _deepOmit(target, elem));
  } else if (typeof value === "object" && value !== null) {
    return Object.entries(omit(value, target)).reduce(
      (acc, [key, value]) => ({ ...acc, [key]: _deepOmit(value as T, target) }),
      {}
    );
  } else {
    return value;
  }
}
```

The `value.map` of the array branch is mirrored by `_deepOmitArr` (with the
swapped arguments of the source's recursive call) and the
`Object.entries(omit(value, target)).reduce` of the object branch by
`omitEntries` followed by `_deepOmitObj`; a thrown `TypeError` propagates
through the `Except` monad. -/

mutual

/-- The dispatch of `_deepOmit` of `src/remeda/index.ts`: array branch, then
object branch (which filters keys through `omit`), else scalar passthrough. -/
def _deepOmit (value target : Value) : Except String Value :=
  match value with
  | .varr es => do
    let rs ← _deepOmitArr es target
    pure (Value.varr rs)
  | .vobj entries =>
    match h : omitEntries entries target with
    | .error e => .error e
    | .ok kept => do
      let rs ← _deepOmitObj kept target
      pure (Value.vobj rs)
  | v => pure v
termination_by sizeOf value + sizeOf target
decreasing_by
  · simp only [Value.varr.sizeOf_spec]; omega
  · have := omitEntries_sizeOf_le h
    simp only [Value.vobj.sizeOf_spec]; omega

/-- The `value.map((elem) => _deepOmit(target, elem))` of the array branch. -/
def _deepOmitArr (es : List Value) (target : Value) :
    Except String (List Value) :=
  match es with
  | [] => pure []
  | e :: rest => do
    let r ← _deepOmit target e
    let rs ← _deepOmitArr rest target
    pure (r :: rs)
termination_by sizeOf es + sizeOf target
decreasing_by
  · simp only [List.cons.sizeOf_spec]; omega
  · simp only [List.cons.sizeOf_spec]; omega

/-- The `reduce((acc, [key, value]) => ({ ...acc, [key]: _deepOmit(value, target) }), {})`
of the object branch, over the entries kept by `omit`. -/
def _deepOmitObj (entries : List (String × Value)) (target : Value) :
    Except String (List (String × Value)) :=
  match entries with
  | [] => pure []
  | (k, v) :: rest => do
    let r ← _deepOmit v target
    let rs ← _deepOmitObj rest target
    pure ((k, r) :: rs)
termination_by sizeOf entries + sizeOf target
decreasing_by
  · simp only [List.cons.sizeOf_spec, Prod.mk.sizeOf_spec]; omega
  · simp only [List.cons.sizeOf_spec]; omega

end

end Remeda

theorem except_pure_eq_ok {α : Type} (a : α) :
    (pure a : Except String α) = Except.ok a := rfl

theorem except_bind_ok {α β : Type} (a : α) (f : α → Except String β) :
    ((Except.ok a : Except String α) >>= f) = f a := rfl

/-- The runtime classification a JavaScript value receives in `_deepOmit`'s
dispatch: `Array.isArray` (sequence), `typeof value === "object" && value
!== null` (mapping), else scalar. -/
inductive JsClass where
  | sequence : JsClass
  | mapping : JsClass
  | scalar : JsClass
deriving DecidableEq

/-- The sequence/mapping/scalar classification of a value. -/
def classOf : Value → JsClass
  | .varr _ => .sequence
  | .vobj _ => .mapping
  | _ => .scalar

mutual

/-- `keyOccursDeep k v` holds when `k` appears as a key of some mapping
anywhere in `v`, at any depth. -/
def keyOccursDeep (k : String) (v : Value) : Bool :=
  match v with
  | .varr es => keyOccursDeepArr k es
  | .vobj entries => keyOccursDeepObj k entries
  | _ => false
termination_by sizeOf v
decreasing_by
  · simp only [Value.varr.sizeOf_spec]; omega
  · simp only [Value.vobj.sizeOf_spec]; omega

/-- `keyOccursDeep` over the elements of a sequence. -/
def keyOccursDeepArr (k : String) (es : List Value) : Bool :=
  match es with
  | [] => false
  | e :: rest => keyOccursDeep k e || keyOccursDeepArr k rest
termination_by sizeOf es
decreasing_by
  · simp only [List.cons.sizeOf_spec]; omega
  · simp only [List.cons.sizeOf_spec]; omega

/-- `keyOccursDeep` over the entries of a mapping: a key matches directly or
occurs in the entry's value. -/
def keyOccursDeepObj (k : String) (entries : List (String × Value)) : Bool :=
  match entries with
  | [] => false
  | (k', v) :: rest => k' == k || keyOccursDeep k v || keyOccursDeepObj k rest
termination_by sizeOf entries
decreasing_by
  · simp only [List.cons.sizeOf_spec, Prod.mk.sizeOf_spec]; omega
  · simp only [List.cons.sizeOf_spec]; omega

end

/-- What a JavaScript call to a purried binary function returns: a plain
result (both arguments supplied) or a unary function (one argument
supplied). -/
inductive PurryResult (α : Type) where
  | val : α → PurryResult α
  | fn : (Value → α) → PurryResult α

/-- remeda's `purry` applied to a binary function and the `arguments` of the
exported wrapper:

```ts
export function purry(fn: any, args: any[] | IArguments, lazy?: any) {
  const diff = fn.length - args.length;
  const arrayArgs = Array.from(args);
  if (diff === 0) { return fn(...arrayArgs); }
  if (diff === 1) {
    const ret = (data: any) => fn(data, ...arrayArgs);
    ...
    return ret;
  }
  throw new Error("Wrong number of arguments");
}
```

With `fn.length = 2`: two arguments call `fn` directly, one argument returns
`(data) => fn(data, arg)`, anything else throws. -/
def purry2 {α : Type} (f : Value → Value → α) (args : List Value) :
    Except String (PurryResult α) :=
  match args with
  | [a, b] => .ok (.val (f a b))
  | [a] => .ok (.fn fun data => f data a)
  | _ => .error "Wrong number of arguments"

/-- `deepOmit` of `src/deep-omit.ts`:
`export function deepOmit() { return purry(_deepOmit, arguments); }` -/
def deepOmitTs (args : List Value) : Except String (PurryResult Value) :=
  purry2 DeepOmitTs._deepOmit args

/-- `deepOmit` of `src/remeda/index.ts`:
`export function deepOmit() { return purry(_deepOmit, arguments); }` -/
def deepOmitRemeda (args : List Value) :
    Except String (PurryResult (Except String Value)) :=
  purry2 Remeda._deepOmit args

/-! ## Claim theorems -/

/-- C1 (code bug): the spec requires that no key of the filter `K` appears in
the result at any depth, but the code violates it.  `_deepOmit` of
`src/deep-omit.ts` never removes a key at all: on `{b: 1}` with filter
`["b"]` it returns `{b: 1}` unchanged, so `"b"` still occurs.  `_deepOmit`
of `src/remeda/index.ts` does filter at object level, but its array branch
swaps the recursion arguments, so on `[{id: 1}]` with filter `["id"]` it
returns `[[{id: 1}]]`, in which `"id"` still occurs. -/
theorem c1_filtered_key_survives :
    DeepOmitTs._deepOmit (.vobj [("b", .vnum 1)]) (keysArr ["b"])
      = .vobj [("b", .vnum 1)]
    ∧ keyOccursDeep "b"
        (DeepOmitTs._deepOmit (.vobj [("b", .vnum 1)]) (keysArr ["b"])) = true
    ∧ Remeda._deepOmit (.varr [.vobj [("id", .vnum 1)]]) (keysArr ["id"])
      = .ok (.varr [.varr [.vobj [("id", .vnum 1)]]])
    ∧ keyOccursDeep "id" (.varr [.varr [.vobj [("id", .vnum 1)]]]) = true := by
  refine ⟨?_, ?_, ?_, ?_⟩ <;>
    simp +decide [DeepOmitTs._deepOmit, DeepOmitTs._deepOmitObj, keysArr,
      Remeda._deepOmit, Remeda._deepOmitArr, Remeda._deepOmitObj,
      Remeda.omitEntries, Remeda.jsSetElems, Remeda.setHasKey,
      except_pure_eq_ok, except_bind_ok, keyOccursDeep, keyOccursDeepArr,
      keyOccursDeepObj]

/-- C2 (code bug): the spec requires the result to have the same
sequence/mapping/scalar classification as the input at every corresponding
position.  Both implementations violate it on the sequence `[1]` with filter
`["a"]`: the swapped recursion arguments of the array branch make the result
`[[1]]`, whose element at position 0 is a sequence where the input has a
scalar. -/
theorem c2_shape_not_preserved :
    DeepOmitTs._deepOmit (.varr [.vnum 1]) (keysArr ["a"])
      = .varr [.varr [.vnum 1]]
    ∧ Remeda._deepOmit (.varr [.vnum 1]) (keysArr ["a"])
      = .ok (.varr [.varr [.vnum 1]])
    ∧ classOf (Value.vnum 1) = .scalar
    ∧ classOf (.varr [.vnum 1]) = .sequence := by
  refine ⟨?_, ?_, rfl, rfl⟩ <;>
    simp +decide [DeepOmitTs._deepOmit, DeepOmitTs._deepOmitArr, keysArr,
      Remeda._deepOmit, Remeda._deepOmitArr, Remeda.omitEntries,
      Remeda.jsSetElems, Remeda.setHasKey, except_pure_eq_ok, except_bind_ok]

/-- C4 (code bug): the spec requires `omitDeep(v, {})` to equal `v`
structurally, but on the sequence `[1]` with the empty filter both
implementations return `[[]]`: the swapped recursion arguments make every
element of a sequence come out as a copy of the (empty) key filter array. -/
theorem c4_empty_filter_not_identity :
    DeepOmitTs._deepOmit (.varr [.vnum 1]) (keysArr []) = .varr [.varr []]
    ∧ Remeda._deepOmit (.varr [.vnum 1]) (keysArr []) = .ok (.varr [.varr []])
    ∧ Value.varr [.varr []] ≠ .varr [.vnum 1] := by
  refine ⟨?_, ?_, by simp⟩ <;>
    simp +decide [DeepOmitTs._deepOmit, DeepOmitTs._deepOmitArr, keysArr,
      Remeda._deepOmit, Remeda._deepOmitArr, Remeda.omitEntries,
      Remeda.jsSetElems, Remeda.setHasKey, except_pure_eq_ok, except_bind_ok]

/-- C6 (code bug): the spec requires idempotence,
`omitDeep(omitDeep(v, K), K) = omitDeep(v, K)`, but on `v = [1]`,
`K = ["a"]` both implementations give `omitDeep(v, K) = [[1]]` and
`omitDeep([[1]], K) = [[["a"]]]`: a second application changes the result
again (and leaks the key string `"a"` into it). -/
theorem c6_not_idempotent :
    DeepOmitTs._deepOmit (DeepOmitTs._deepOmit (.varr [.vnum 1]) (keysArr ["a"]))
        (keysArr ["a"])
      = .varr [.varr [.varr [.vstr "a"]]]
    ∧ DeepOmitTs._deepOmit (.varr [.vnum 1]) (keysArr ["a"])
      = .varr [.varr [.vnum 1]]
    ∧ Value.varr [.varr [.varr [.vstr "a"]]] ≠ .varr [.varr [.vnum 1]]
    ∧ Remeda._deepOmit (.varr [.vnum 1]) (keysArr ["a"])
      = .ok (.varr [.varr [.vnum 1]])
    ∧ Remeda._deepOmit (.varr [.varr [.vnum 1]]) (keysArr ["a"])
      = .ok (.varr [.varr [.varr [.vstr "a"]]]) := by
  refine ⟨?_, ?_, by simp, ?_, ?_⟩ <;>
    simp +decide [DeepOmitTs._deepOmit, DeepOmitTs._deepOmitArr, keysArr,
      Remeda._deepOmit, Remeda._deepOmitArr, Remeda.omitEntries,
      Remeda.jsSetElems, Remeda.setHasKey, except_pure_eq_ok, except_bind_ok]

/-- C5 (confirmed): partial application equivalence.  `deepOmit` of
`src/deep-omit.ts` dispatches through remeda's `purry`: called with only the
key filter it returns a unary function `f`, and `f v` is exactly what the
binary call on `(v, K)` returns, namely `_deepOmit v K`. -/
theorem c5_partial_application_equiv (v K : Value) :
    ∃ f, deepOmitTs [K] = .ok (.fn f)
      ∧ deepOmitTs [v, K] = .ok (.val (f v))
      ∧ f v = DeepOmitTs._deepOmit v K := by
  exact ⟨fun data => DeepOmitTs._deepOmit data K, rfl, rfl, rfl⟩

/-- C10 (counterexample): the two implementations are not extensionally
equal.  On `{b: 1}` with filter `["b"]`, `src/deep-omit.ts` returns `{b: 1}`
(it never removes keys) while `src/remeda/index.ts` returns `{}`. -/
theorem c10_implementations_disagree :
    Except.ok (DeepOmitTs._deepOmit (.vobj [("b", .vnum 1)]) (keysArr ["b"]))
      ≠ Remeda._deepOmit (.vobj [("b", .vnum 1)]) (keysArr ["b"]) := by
  simp +decide [DeepOmitTs._deepOmit, DeepOmitTs._deepOmitObj, keysArr,
    Remeda._deepOmit, Remeda._deepOmitObj, Remeda.omitEntries,
    Remeda.jsSetElems, Remeda.setHasKey, except_pure_eq_ok, except_bind_ok]

/-- C3 (code bug): the spec says every key not in `K` survives with its
value recursively transformed by the same omit rule.  On `[{p: [1]}]` with
`K = ["a"]` the surviving key `"p"` comes out with value `["a"]` — the key
filter string itself, leaked by the swapped recursion arguments — while the
same rule applied to its source value `[1]` gives `[[1]]`.  Both
implementations disagree with the claim in the same way. -/
theorem c3_survivor_value_not_same_rule :
    DeepOmitTs._deepOmit (.varr [.vobj [("p", .varr [.vnum 1])]])
        (keysArr ["a"])
      = .varr [.varr [.vobj [("p", .varr [.vstr "a"])]]]
    ∧ DeepOmitTs._deepOmit (.varr [.vnum 1]) (keysArr ["a"])
      = .varr [.varr [.vnum 1]]
    ∧ Value.varr [.vstr "a"] ≠ .varr [.varr [.vnum 1]]
    ∧ Remeda._deepOmit (.varr [.vobj [("p", .varr [.vnum 1])]])
        (keysArr ["a"])
      = .ok (.varr [.varr [.vobj [("p", .varr [.vstr "a"])]]])
    ∧ Remeda._deepOmit (.varr [.vnum 1]) (keysArr ["a"])
      = .ok (.varr [.varr [.vnum 1]]) := by
  refine ⟨?_, ?_, by simp, ?_, ?_⟩ <;>
    simp +decide [DeepOmitTs._deepOmit, DeepOmitTs._deepOmitArr,
      DeepOmitTs._deepOmitObj, keysArr, Remeda._deepOmit, Remeda._deepOmitArr,
      Remeda._deepOmitObj, Remeda.omitEntries, Remeda.jsSetElems,
      Remeda.setHasKey, except_pure_eq_ok, except_bind_ok]

theorem remeda_deepOmitArr_empty_filter (es : List Value) :
    Remeda._deepOmitArr es (Value.varr []) =
      .ok (DeepOmitTs._deepOmitArr es (Value.varr [])) := by
  induction es with
  | nil => simp [Remeda._deepOmitArr, DeepOmitTs._deepOmitArr, except_pure_eq_ok]
  | cons e rest ih =>
    simp [Remeda._deepOmitArr, DeepOmitTs._deepOmitArr, Remeda._deepOmit,
      DeepOmitTs._deepOmit, Remeda._deepOmitArr, DeepOmitTs._deepOmitArr,
      except_pure_eq_ok, except_bind_ok, ih]

theorem remeda_deepOmitObj_congr_ok (entries : List (String × Value))
    (t : Value)
    (h : ∀ p ∈ entries,
      Remeda._deepOmit p.2 t = .ok (DeepOmitTs._deepOmit p.2 t)) :
    Remeda._deepOmitObj entries t =
      .ok (DeepOmitTs._deepOmitObj entries t) := by
  induction entries with
  | nil => simp [Remeda._deepOmitObj, DeepOmitTs._deepOmitObj, except_pure_eq_ok]
  | cons p rest ih =>
    rcases p with ⟨k, v⟩
    have hv := h (k, v) (List.mem_cons_self _ _)
    have hrest := ih fun q hq => h q (List.mem_cons_of_mem _ hq)
    simp [Remeda._deepOmitObj, DeepOmitTs._deepOmitObj, hv, hrest,
      except_pure_eq_ok, except_bind_ok]

theorem value_sizeOf_pos (v : Value) : 0 < sizeOf v := by
  cases v <;> simp_arith

theorem omitEntries_empty_filter (entries : List (String × Value)) :
    Remeda.omitEntries entries (Value.varr []) = .ok entries := by
  simp [Remeda.omitEntries, Remeda.jsSetElems, Remeda.setHasKey]

/-- C10 amended (proved): the two implementations agree whenever the key
filter is the empty array — the only code difference between them is the
`omit` call of the object branch, which with an empty filter keeps every
entry — while for non-empty filters they differ
(`c10_implementations_disagree`). -/
theorem c10_amended_empty_filter_agreement (v : Value) :
    Remeda._deepOmit v (keysArr []) =
      .ok (DeepOmitTs._deepOmit v (keysArr [])) := by
  have main : ∀ n (v : Value), sizeOf v ≤ n →
      Remeda._deepOmit v (Value.varr []) =
        .ok (DeepOmitTs._deepOmit v (Value.varr [])) := by
    intro n
    induction n with
    | zero =>
      intro v hv
      have := value_sizeOf_pos v
      omega
    | succ n ih =>
      intro v hv
      cases v with
      | varr es =>
        simp [Remeda._deepOmit, DeepOmitTs._deepOmit,
          remeda_deepOmitArr_empty_filter, except_pure_eq_ok, except_bind_ok]
      | vobj entries =>
        have hent : ∀ p ∈ entries,
            Remeda._deepOmit p.2 (Value.varr []) =
              .ok (DeepOmitTs._deepOmit p.2 (Value.varr [])) := by
          intro p hp
          apply ih
          have h1 := sizeOf_snd_lt_of_mem_entries hp
          have h2 : sizeOf (Value.vobj entries) = 1 + sizeOf entries := by
            simp
          omega
        simp only [Remeda._deepOmit]
        split
        next e he =>
          rw [omitEntries_empty_filter] at he
          cases he
        next kept hk =>
          rw [omitEntries_empty_filter] at hk
          injection hk with hk
          subst hk
          simp [DeepOmitTs._deepOmit,
            remeda_deepOmitObj_congr_ok entries _ hent, except_pure_eq_ok,
            except_bind_ok]
      | vnull =>
        simp [Remeda._deepOmit, DeepOmitTs._deepOmit, except_pure_eq_ok]
      | vundef =>
        simp [Remeda._deepOmit, DeepOmitTs._deepOmit, except_pure_eq_ok]
      | vbool b =>
        simp [Remeda._deepOmit, DeepOmitTs._deepOmit, except_pure_eq_ok]
      | vnum n =>
        simp [Remeda._deepOmit, DeepOmitTs._deepOmit, except_pure_eq_ok]
      | vstr s =>
        simp [Remeda._deepOmit, DeepOmitTs._deepOmit, except_pure_eq_ok]
  exact main (sizeOf v) v le_rfl

namespace DeepOmitTs

/-- `_deepOmit` of `src/deep-omit.ts` with an explicit bound on the depth of
the JavaScript call stack: each recursive call consumes one unit of fuel and
`none` is returned if the budget runs out.  The recursion structure —
including the swapped arguments of the array branch — is exactly that of
`_deepOmit`; the fuel only makes the implicit stack explicit, so that
termination on every acyclic input is a provable statement
(`_deepOmitFuel_sufficient`). -/
def _deepOmitFuel (fuel : Nat) (value target : Value) : Option Value :=
  match fuel with
  | 0 => none
  | fuel + 1 =>
    match value with
    | .varr es =>
      (es.mapM fun e => _deepOmitFuel fuel target e).map Value.varr
    | .vobj entries =>
      (entries.mapM fun p =>
        (_deepOmitFuel fuel p.2 target).map fun r => (p.1, r)).map Value.vobj
    | v => some v

theorem _deepOmitArr_eq_map (es : List Value) (t : Value) :
    _deepOmitArr es t = es.map fun e => _deepOmit t e := by
  induction es with
  | nil => simp [_deepOmitArr]
  | cons e rest ih => simp [_deepOmitArr, ih]

theorem _deepOmitObj_eq_map (entries : List (String × Value)) (t : Value) :
    _deepOmitObj entries t = entries.map fun p => (p.1, _deepOmit p.2 t) := by
  induction entries with
  | nil => simp [_deepOmitObj]
  | cons p rest ih =>
    rcases p with ⟨k, v⟩
    simp [_deepOmitObj, ih]

end DeepOmitTs

theorem mapM_option_some {α β : Type} (f : α → Option β) (g : α → β)
    (l : List α) (h : ∀ a ∈ l, f a = some (g a)) :
    l.mapM f = some (l.map g) := by
  rw [← List.mapM'_eq_mapM]
  induction l with
  | nil => simp [List.mapM'_nil]
  | cons a rest ih =>
    have ha := h a (List.mem_cons_self _ _)
    have hrest := ih fun b hb => h b (List.mem_cons_of_mem _ hb)
    simp [List.mapM'_cons, ha, hrest]

namespace DeepOmitTs

/-- On any acyclic value a call stack of `sizeOf value + sizeOf target`
frames suffices: with that much fuel the bounded runner returns exactly the
result of the unbounded function. -/
theorem _deepOmitFuel_sufficient :
    ∀ (fuel : Nat) (value target : Value),
      sizeOf value + sizeOf target < fuel →
      _deepOmitFuel fuel value target = some (_deepOmit value target) := by
  intro fuel
  induction fuel with
  | zero => intro v t h; omega
  | succ fuel ih =>
    intro v t h
    cases v with
    | varr es =>
      have hsz : sizeOf (Value.varr es) = 1 + sizeOf es := by simp
      have hpt : ∀ e ∈ es, _deepOmitFuel fuel t e = some (_deepOmit t e) := by
        intro e he
        apply ih
        have := sizeOf_lt_of_mem_list he
        omega
      simp only [_deepOmitFuel]
      rw [mapM_option_some _ (fun e => _deepOmit t e) es hpt]
      simp [_deepOmit, _deepOmitArr_eq_map]
    | vobj entries =>
      have hsz : sizeOf (Value.vobj entries) = 1 + sizeOf entries := by simp
      have hpt : ∀ p ∈ entries,
          (_deepOmitFuel fuel p.2 t).map (fun r => (p.1, r)) =
            some (p.1, _deepOmit p.2 t) := by
        intro p hp
        have hone : _deepOmitFuel fuel p.2 t = some (_deepOmit p.2 t) := by
          apply ih
          have := sizeOf_snd_lt_of_mem_entries hp
          omega
        rw [hone]
        rfl
      simp only [_deepOmitFuel]
      rw [mapM_option_some _ (fun p => (p.1, _deepOmit p.2 t)) entries hpt]
      simp [_deepOmit, _deepOmitObj_eq_map]
    | vnull => simp [_deepOmitFuel, _deepOmit]
    | vundef => simp [_deepOmitFuel, _deepOmit]
    | vbool b => simp [_deepOmitFuel, _deepOmit]
    | vnum n => simp [_deepOmitFuel, _deepOmit]
    | vstr s => simp [_deepOmitFuel, _deepOmit]

end DeepOmitTs

namespace Remeda

/-- Targets on which `new Set(target)` cannot throw, hereditarily for the
positions the recursion can move a target into: strings, `null`,
`undefined`, and arrays all of whose elements are strings.  The key filter
`keysArr K` always satisfies this. -/
def goodTarget : Value → Bool
  | .vstr _ => true
  | .vnull => true
  | .vundef => true
  | .varr l =>
    l.all fun x =>
      match x with
      | .vstr _ => true
      | _ => false
  | _ => false

theorem goodTarget_keysArr (K : List String) :
    goodTarget (keysArr K) = true := by
  simp only [goodTarget, keysArr, List.all_eq_true]
  intro x hx
  obtain ⟨s, _, rfl⟩ := List.mem_map.mp hx
  rfl

theorem jsSetElems_ok_of_goodTarget {t : Value} (h : goodTarget t = true) :
    ∃ set, jsSetElems t = .ok set := by
  cases t <;> simp_all [goodTarget, jsSetElems]

theorem _deepOmitArr_ok (es : List Value) (t : Value)
    (h : ∀ e ∈ es, ∃ r, _deepOmit t e = .ok r) :
    ∃ rs, _deepOmitArr es t = .ok rs := by
  induction es with
  | nil => exact ⟨[], by simp [_deepOmitArr, except_pure_eq_ok]⟩
  | cons e rest ih =>
    obtain ⟨r, hr⟩ := h e (List.mem_cons_self _ _)
    obtain ⟨rs, hrs⟩ := ih fun b hb => h b (List.mem_cons_of_mem _ hb)
    exact ⟨r :: rs,
      by simp [_deepOmitArr, hr, hrs, except_pure_eq_ok, except_bind_ok]⟩

theorem _deepOmitObj_ok (entries : List (String × Value)) (t : Value)
    (h : ∀ p ∈ entries, ∃ r, _deepOmit p.2 t = .ok r) :
    ∃ rs, _deepOmitObj entries t = .ok rs := by
  induction entries with
  | nil => exact ⟨[], by simp [_deepOmitObj, except_pure_eq_ok]⟩
  | cons p rest ih =>
    rcases p with ⟨k, v⟩
    obtain ⟨r, hr⟩ := h (k, v) (List.mem_cons_self _ _)
    obtain ⟨rs, hrs⟩ := ih fun q hq => h q (List.mem_cons_of_mem _ hq)
    exact ⟨(k, r) :: rs,
      by simp [_deepOmitObj, hr, hrs, except_pure_eq_ok, except_bind_ok]⟩

/-- `_deepOmit` of `src/remeda/index.ts` never throws as long as, of the
two arguments, at least one is a hereditarily safe target — which holds for
every actual call `_deepOmit v (keysArr K)`, and is preserved by the
argument swap of the array branch. -/
theorem _deepOmit_ok :
    ∀ (n : Nat) (v t : Value), sizeOf v + sizeOf t ≤ n →
      goodTarget t = true ∨ goodTarget v = true →
      ∃ r, _deepOmit v t = .ok r := by
  intro n
  induction n with
  | zero =>
    intro v t hn _
    have := value_sizeOf_pos v
    have := value_sizeOf_pos t
    omega
  | succ n ih =>
    intro v t hn hg
    cases v with
    | varr es =>
      have hsz : sizeOf (Value.varr es) = 1 + sizeOf es := by simp
      have helem : ∀ e ∈ es, ∃ r, _deepOmit t e = .ok r := by
        intro e he
        have hlt := sizeOf_lt_of_mem_list he
        apply ih t e (by omega)
        rcases hg with hg | hg
        · right; exact hg
        · left
          simp only [goodTarget, List.all_eq_true] at hg
          have := hg e he
          cases e <;> simp_all [goodTarget]
      obtain ⟨rs, hrs⟩ := _deepOmitArr_ok es t helem
      exact ⟨Value.varr rs,
        by simp [_deepOmit, hrs, except_pure_eq_ok, except_bind_ok]⟩
    | vobj entries =>
      have hsz : sizeOf (Value.vobj entries) = 1 + sizeOf entries := by simp
      have hgt : goodTarget t = true := by
        rcases hg with hg | hg
        · exact hg
        · simp [goodTarget] at hg
      obtain ⟨set, hset⟩ := jsSetElems_ok_of_goodTarget hgt
      have homit : omitEntries entries t =
          .ok (entries.filter fun p => !setHasKey set p.1) := by
        unfold omitEntries
        rw [hset]
      have hkept : ∀ p ∈ (entries.filter fun p => !setHasKey set p.1),
          ∃ r, _deepOmit p.2 t = .ok r := by
        intro p hp
        have hmem := List.mem_of_mem_filter hp
        have hlt := sizeOf_snd_lt_of_mem_entries hmem
        exact ih p.2 t (by omega) (Or.inl hgt)
      obtain ⟨rs, hrs⟩ := _deepOmitObj_ok _ t hkept
      refine ⟨Value.vobj rs, ?_⟩
      simp only [_deepOmit]
      split
      next e he => rw [homit] at he; cases he
      next kept hk =>
        rw [homit] at hk
        injection hk with hk
        subst hk
        simp [hrs, except_pure_eq_ok, except_bind_ok]
    | vnull => exact ⟨.vnull, by simp [_deepOmit, except_pure_eq_ok]⟩
    | vundef => exact ⟨.vundef, by simp [_deepOmit, except_pure_eq_ok]⟩
    | vbool b => exact ⟨.vbool b, by simp [_deepOmit, except_pure_eq_ok]⟩
    | vnum m => exact ⟨.vnum m, by simp [_deepOmit, except_pure_eq_ok]⟩
    | vstr s => exact ⟨.vstr s, by simp [_deepOmit, except_pure_eq_ok]⟩

end Remeda

/-- C7 (confirmed): totality.  For every acyclic value `v` and string key
set `K`, both implementations terminate and return a result without raising:
`src/deep-omit.ts`'s `_deepOmit` needs a recursion depth of at most
`sizeOf v + sizeOf (keysArr K)` (the bounded runner whose fuel exceeds that
returns its result rather than running out), and
`src/remeda/index.ts`'s `_deepOmit` returns `ok` — no `TypeError` escapes
from its `omit`/`Set` machinery on any value shape, including `null`,
`undefined`, empty containers and key-less objects. -/
theorem c7_total_and_never_raises (v : Value) (K : List String) :
    DeepOmitTs._deepOmitFuel (sizeOf v + sizeOf (keysArr K) + 1) v (keysArr K)
      = some (DeepOmitTs._deepOmit v (keysArr K))
    ∧ ∃ r, Remeda._deepOmit v (keysArr K) = .ok r := by
  constructor
  · apply DeepOmitTs._deepOmitFuel_sufficient
    omega
  · exact Remeda._deepOmit_ok (sizeOf v + sizeOf (keysArr K)) v (keysArr K)
      le_rfl (Or.inl (Remeda.goodTarget_keysArr K))

/-! ## Allocation-tagged model (for the structural-copy invariant)

JavaScript object identity is not visible on plain `Value`s, so the
structural-copy claim — every mapping/sequence of the result is a freshly
allocated container, never an input container returned by reference — is
stated on `AValue`, a copy of `Value` whose containers carry the identity
of their heap allocation.  Each evaluation of an array or object literal in
the source allocates a new container; the model threads an allocation
counter and stamps every constructed container with a fresh identifier.
Scalars carry no identity (primitives are compared by value in JS). -/

/-- A JavaScript value whose containers carry an allocation identity. -/
inductive AValue where
  | anull : AValue
  | aundef : AValue
  | abool : Bool → AValue
  | anum : Int → AValue
  | astr : String → AValue
  | aarr : Nat → List AValue → AValue
  | aobj : Nat → List (String × AValue) → AValue

mutual

/-- The allocation identities of all containers in a value, at any depth. -/
def containerIds (v : AValue) : List Nat :=
  match v with
  | .aarr i es => i :: containerIdsArr es
  | .aobj i entries => i :: containerIdsObj entries
  | _ => []
termination_by sizeOf v
decreasing_by
  · simp only [AValue.aarr.sizeOf_spec]; omega
  · simp only [AValue.aobj.sizeOf_spec]; omega

/-- `containerIds` over the elements of a sequence. -/
def containerIdsArr (es : List AValue) : List Nat :=
  match es with
  | [] => []
  | e :: rest => containerIds e ++ containerIdsArr rest
termination_by sizeOf es
decreasing_by
  · simp only [List.cons.sizeOf_spec]; omega
  · simp only [List.cons.sizeOf_spec]; omega

/-- `containerIds` over the entries of a mapping. -/
def containerIdsObj (entries : List (String × AValue)) : List Nat :=
  match entries with
  | [] => []
  | (_, v) :: rest => containerIds v ++ containerIdsObj rest
termination_by sizeOf entries
decreasing_by
  · simp only [List.cons.sizeOf_spec, Prod.mk.sizeOf_spec]; omega
  · simp only [List.cons.sizeOf_spec]; omega

end

namespace DeepOmitTs

mutual

/-- `_deepOmit` of `src/deep-omit.ts` instrumented with allocation
identities: the `let collect = []` / `let collect = {}` literal of each
branch allocates the container that the branch returns (identity `n`, the
current counter), and the loop then fills it; scalars pass through
untouched.  The recursion structure is exactly that of `_deepOmit`. -/
def _deepOmitAlloc (value target : AValue) (n : Nat) : AValue × Nat :=
  match value with
  | .aarr _ es =>
    let (rs, n') := _deepOmitAllocArr es target (n + 1)
    (.aarr n rs, n')
  | .aobj _ entries =>
    let (rs, n') := _deepOmitAllocObj entries target (n + 1)
    (.aobj n rs, n')
  | v => (v, n)
termination_by sizeOf value + sizeOf target
decreasing_by
  · simp only [AValue.aarr.sizeOf_spec]; omega
  · simp only [AValue.aobj.sizeOf_spec]; omega

/-- The array-branch loop of `_deepOmitAlloc` (same argument swap as the
source), threading the allocation counter left to right. -/
def _deepOmitAllocArr (es : List AValue) (target : AValue) (n : Nat) :
    List AValue × Nat :=
  match es with
  | [] => ([], n)
  | e :: rest =>
    let (r, n1) := _deepOmitAlloc target e n
    let (rs, n2) := _deepOmitAllocArr rest target n1
    (r :: rs, n2)
termination_by sizeOf es + sizeOf target
decreasing_by
  · simp only [List.cons.sizeOf_spec]; omega
  · simp only [List.cons.sizeOf_spec]; omega

/-- The object-branch loop of `_deepOmitAlloc`, threading the allocation
counter left to right. -/
def _deepOmitAllocObj (entries : List (String × AValue)) (target : AValue)
    (n : Nat) : List (String × AValue) × Nat :=
  match entries with
  | [] => ([], n)
  | (k, v) :: rest =>
    let (r, n1) := _deepOmitAlloc v target n
    let (rs, n2) := _deepOmitAllocObj rest target n1
    ((k, r) :: rs, n2)
termination_by sizeOf entries + sizeOf target
decreasing_by
  · simp only [List.cons.sizeOf_spec, Prod.mk.sizeOf_spec]; omega
  · simp only [List.cons.sizeOf_spec]; omega

end

end DeepOmitTs

namespace Remeda

/-- `jsSetElems` on allocation-tagged values (same semantics). -/
def jsSetElemsA : AValue → Except String (List AValue)
  | .aarr _ es => .ok es
  | .astr s => .ok (s.data.map fun c => AValue.astr c.toString)
  | .anull => .ok []
  | .aundef => .ok []
  | _ => .error "TypeError: value is not iterable"

/-- `setHasKey` on allocation-tagged values (same semantics). -/
def setHasKeyA (set : List AValue) (name : String) : Bool :=
  set.any fun x =>
    match x with
    | .astr s => s == name
    | _ => false

/-- `omitEntries` on allocation-tagged values.  remeda's `_omit` also builds
its result in one freshly allocated object literal; only its entry list is
used here, the allocation itself is accounted for in `_deepOmitAlloc`'s
object branch. -/
def omitEntriesA (entries : List (String × AValue)) (target : AValue) :
    Except String (List (String × AValue)) :=
  match jsSetElemsA target with
  | .error e => .error e
  | .ok set => .ok (entries.filter fun p => !setHasKeyA set p.1)

theorem sizeOf_filterA_le (p : String × AValue → Bool)
    (l : List (String × AValue)) : sizeOf (l.filter p) ≤ sizeOf l := by
  induction l with
  | nil => simp
  | cons a l ih =>
    by_cases h : p a
    · rw [List.filter_cons_of_pos h]
      simp only [List.cons.sizeOf_spec]; omega
    · rw [List.filter_cons_of_neg h]
      simp only [List.cons.sizeOf_spec]; omega

theorem omitEntriesA_sizeOf_le {entries kept : List (String × AValue)}
    {target : AValue} (h : omitEntriesA entries target = .ok kept) :
    sizeOf kept ≤ sizeOf entries := by
  unfold omitEntriesA at h
  cases hs : jsSetElemsA target with
  | error e => rw [hs] at h; cases h
  | ok set =>
    rw [hs] at h
    cases h
    exact sizeOf_filterA_le _ _

mutual

/-- `_deepOmit` of `src/remeda/index.ts` instrumented with allocation
identities.  The array branch's `value.map` allocates the returned array
(identity `n`) and fills it element-wise.  In the object branch, `omit`
builds one intermediate object (identity `n`, it never reaches the output),
the outer `reduce` starts from a fresh `{}` literal (identity `n + 1`) and
each step's spread `{ ...acc, [key]: r }` allocates a further object, the
last of which is returned; `_deepOmitAllocObjR` threads the identity of the
current accumulator alongside the counter.  Scalars pass through
untouched. -/
def _deepOmitAllocR (value target : AValue) (n : Nat) :
    Except String (AValue × Nat) :=
  match value with
  | .aarr _ es => do
    let (rs, n') ← _deepOmitAllocArrR es target (n + 1)
    pure (AValue.aarr n rs, n')
  | .aobj _ entries =>
    match h : omitEntriesA entries target with
    | .error e => .error e
    | .ok kept => do
      let (rs, accId, n') ← _deepOmitAllocObjR kept target (n + 1) (n + 2)
      pure (AValue.aobj accId rs, n')
  | v => pure (v, n)
termination_by sizeOf value + sizeOf target
decreasing_by
  · simp only [AValue.aarr.sizeOf_spec]; omega
  · have := omitEntriesA_sizeOf_le h
    simp only [AValue.aobj.sizeOf_spec]; omega

/-- The `value.map((elem) => _deepOmit(target, elem))` loop of
`_deepOmitAllocR` (same argument swap as the source). -/
def _deepOmitAllocArrR (es : List AValue) (target : AValue) (n : Nat) :
    Except String (List AValue × Nat) :=
  match es with
  | [] => pure ([], n)
  | e :: rest => do
    let (r, n1) ← _deepOmitAllocR target e n
    let (rs, n2) ← _deepOmitAllocArrR rest target n1
    pure (r :: rs, n2)
termination_by sizeOf es + sizeOf target
decreasing_by
  · simp only [List.cons.sizeOf_spec]; omega
  · simp only [List.cons.sizeOf_spec]; omega

/-- The `reduce` loop of `_deepOmitAllocR`'s object branch: each step
recurses into the entry value and then allocates the spread object
`{ ...acc, [key]: r }`, which becomes the new accumulator. -/
def _deepOmitAllocObjR (entries : List (String × AValue)) (target : AValue)
    (accId n : Nat) : Except String (List (String × AValue) × Nat × Nat) :=
  match entries with
  | [] => pure ([], accId, n)
  | (k, v) :: rest => do
    let (r, n1) ← _deepOmitAllocR v target n
    let (rs, accId', n2) ← _deepOmitAllocObjR rest target n1 (n1 + 1)
    pure ((k, r) :: rs, accId', n2)
termination_by sizeOf entries + sizeOf target
decreasing_by
  · simp only [List.cons.sizeOf_spec, Prod.mk.sizeOf_spec]; omega
  · simp only [List.cons.sizeOf_spec]; omega

end

end Remeda

theorem avalue_sizeOf_pos (v : AValue) : 0 < sizeOf v := by
  cases v <;> simp_arith

theorem alist_sizeOf_pos (l : List AValue) : 0 < sizeOf l := by
  cases l <;> simp_arith

theorem aentries_sizeOf_pos (l : List (String × AValue)) : 0 < sizeOf l := by
  cases l <;> simp_arith

theorem asizeOf_lt_of_mem_list {v : AValue} {l : List AValue} (h : v ∈ l) :
    sizeOf v < sizeOf l := by
  induction l with
  | nil => cases h
  | cons a l ih =>
    rcases List.mem_cons.mp h with rfl | h
    · simp only [List.cons.sizeOf_spec]; omega
    · have := ih h; simp only [List.cons.sizeOf_spec]; omega

theorem asizeOf_snd_lt_of_mem_entries {p : String × AValue}
    {l : List (String × AValue)} (h : p ∈ l) : sizeOf p.2 < sizeOf l := by
  induction l with
  | nil => cases h
  | cons a l ih =>
    rcases List.mem_cons.mp h with rfl | h
    · rcases p with ⟨k, v⟩
      simp only [List.cons.sizeOf_spec, Prod.mk.sizeOf_spec]; omega
    · have := ih h; simp only [List.cons.sizeOf_spec]; omega

namespace DeepOmitTs

/-- Freshness for the instrumented `src/deep-omit.ts` walk: starting from
counter `n`, the counter never decreases and every container of the result
carries an identity at least `n`, i.e. was allocated during the call. -/
theorem _deepOmitAlloc_fresh : ∀ k : Nat,
    (∀ (v t : AValue) (n : Nat), sizeOf v + sizeOf t ≤ k →
      n ≤ (_deepOmitAlloc v t n).2
      ∧ ∀ i ∈ containerIds (_deepOmitAlloc v t n).1, n ≤ i)
    ∧ (∀ (es : List AValue) (t : AValue) (n : Nat), sizeOf es + sizeOf t ≤ k →
      n ≤ (_deepOmitAllocArr es t n).2
      ∧ ∀ i ∈ containerIdsArr (_deepOmitAllocArr es t n).1, n ≤ i)
    ∧ (∀ (entries : List (String × AValue)) (t : AValue) (n : Nat),
      sizeOf entries + sizeOf t ≤ k →
      n ≤ (_deepOmitAllocObj entries t n).2
      ∧ ∀ i ∈ containerIdsObj (_deepOmitAllocObj entries t n).1, n ≤ i) := by
  intro k
  induction k with
  | zero =>
    refine ⟨fun v t n h => ?_, fun es t n h => ?_, fun entries t n h => ?_⟩
    · have := avalue_sizeOf_pos v; have := avalue_sizeOf_pos t; omega
    · have := alist_sizeOf_pos es; have := avalue_sizeOf_pos t; omega
    · have := aentries_sizeOf_pos entries; have := avalue_sizeOf_pos t; omega
  | succ k ih =>
    obtain ⟨ihV, ihArr, ihObj⟩ := ih
    refine ⟨fun v t n h => ?_, fun es t n h => ?_, fun entries t n h => ?_⟩
    · cases v with
      | aarr i es =>
        have hm : sizeOf es + sizeOf t ≤ k := by
          have : sizeOf (AValue.aarr i es) = 1 + sizeOf i + sizeOf es := by
            simp
          omega
        obtain ⟨h1, h2⟩ := ihArr es t (n + 1) hm
        rcases hq : _deepOmitAllocArr es t (n + 1) with ⟨rs, n'⟩
        rw [hq] at h1 h2
        simp only [_deepOmitAlloc, hq]
        refine ⟨by omega, ?_⟩
        intro i hi
        simp only [containerIds, List.mem_cons] at hi
        rcases hi with rfl | hi
        · omega
        · have := h2 i hi; omega
      | aobj i entries =>
        have hm : sizeOf entries + sizeOf t ≤ k := by
          have : sizeOf (AValue.aobj i entries) =
              1 + sizeOf i + sizeOf entries := by simp
          omega
        obtain ⟨h1, h2⟩ := ihObj entries t (n + 1) hm
        rcases hq : _deepOmitAllocObj entries t (n + 1) with ⟨rs, n'⟩
        rw [hq] at h1 h2
        simp only [_deepOmitAlloc, hq]
        refine ⟨by omega, ?_⟩
        intro i hi
        simp only [containerIds, List.mem_cons] at hi
        rcases hi with rfl | hi
        · omega
        · have := h2 i hi; omega
      | anull => simp [_deepOmitAlloc, containerIds]
      | aundef => simp [_deepOmitAlloc, containerIds]
      | abool b => simp [_deepOmitAlloc, containerIds]
      | anum m => simp [_deepOmitAlloc, containerIds]
      | astr s => simp [_deepOmitAlloc, containerIds]
    · cases es with
      | nil => simp [_deepOmitAllocArr, containerIdsArr]
      | cons e rest =>
        have hsz : sizeOf (e :: rest) = 1 + sizeOf e + sizeOf rest := by simp
        have hme : sizeOf t + sizeOf e ≤ k := by omega
        have hmr : sizeOf rest + sizeOf t ≤ k := by omega
        obtain ⟨h1, h2⟩ := ihV t e n hme
        rcases hq1 : _deepOmitAlloc t e n with ⟨r, n1⟩
        rw [hq1] at h1 h2
        obtain ⟨h3, h4⟩ := ihArr rest t n1 hmr
        rcases hq2 : _deepOmitAllocArr rest t n1 with ⟨rs, n2⟩
        rw [hq2] at h3 h4
        simp only [_deepOmitAllocArr, hq1, hq2]
        refine ⟨by omega, ?_⟩
        intro i hi
        simp only [containerIdsArr, List.mem_append] at hi
        rcases hi with hi | hi
        · exact h2 i hi
        · have := h4 i hi; omega
    · cases entries with
      | nil => simp [_deepOmitAllocObj, containerIdsObj]
      | cons p rest =>
        rcases p with ⟨key, v⟩
        have hsz : sizeOf ((key, v) :: rest) =
            1 + (1 + sizeOf key + sizeOf v) + sizeOf rest := by simp
        have hme : sizeOf v + sizeOf t ≤ k := by omega
        have hmr : sizeOf rest + sizeOf t ≤ k := by omega
        obtain ⟨h1, h2⟩ := ihV v t n hme
        rcases hq1 : _deepOmitAlloc v t n with ⟨r, n1⟩
        rw [hq1] at h1 h2
        obtain ⟨h3, h4⟩ := ihObj rest t n1 hmr
        rcases hq2 : _deepOmitAllocObj rest t n1 with ⟨rs, n2⟩
        rw [hq2] at h3 h4
        simp only [_deepOmitAllocObj, hq1, hq2]
        refine ⟨by omega, ?_⟩
        intro i hi
        simp only [containerIdsObj, List.mem_append] at hi
        rcases hi with hi | hi
        · exact h2 i hi
        · have := h4 i hi; omega

end DeepOmitTs

theorem except_bind_error {α β : Type} (e : String)
    (f : α → Except String β) :
    ((Except.error e : Except String α) >>= f) = .error e := rfl

namespace Remeda

/-- Freshness for the instrumented `src/remeda/index.ts` walk: when the
call returns (rather than throwing), the counter never decreases and every
container of the result carries an identity at least `n`, i.e. was
allocated during the call. -/
theorem _deepOmitAllocR_fresh : ∀ k : Nat,
    (∀ (v t : AValue) (n : Nat) (r : AValue) (n' : Nat),
      sizeOf v + sizeOf t ≤ k → _deepOmitAllocR v t n = .ok (r, n') →
      n ≤ n' ∧ ∀ i ∈ containerIds r, n ≤ i)
    ∧ (∀ (es : List AValue) (t : AValue) (n : Nat) (rs : List AValue)
        (n' : Nat), sizeOf es + sizeOf t ≤ k →
      _deepOmitAllocArrR es t n = .ok (rs, n') →
      n ≤ n' ∧ ∀ i ∈ containerIdsArr rs, n ≤ i)
    ∧ (∀ (entries : List (String × AValue)) (t : AValue)
        (accId n : Nat) (rs : List (String × AValue)) (accId' n' : Nat),
      sizeOf entries + sizeOf t ≤ k →
      _deepOmitAllocObjR entries t accId n = .ok (rs, accId', n') →
      n ≤ n' ∧ (accId' = accId ∨ n ≤ accId')
      ∧ ∀ i ∈ containerIdsObj rs, n ≤ i) := by
  intro k
  induction k with
  | zero =>
    refine ⟨fun v t n r n' h _ => ?_, fun es t n rs n' h _ => ?_,
      fun entries t accId n rs accId' n' h _ => ?_⟩
    · have := avalue_sizeOf_pos v; have := avalue_sizeOf_pos t; omega
    · have := alist_sizeOf_pos es; have := avalue_sizeOf_pos t; omega
    · have := aentries_sizeOf_pos entries; have := avalue_sizeOf_pos t; omega
  | succ k ih =>
    obtain ⟨ihV, ihArr, ihObj⟩ := ih
    refine ⟨fun v t n r n' h heq => ?_, fun es t n rs n' h heq => ?_,
      fun entries t accId n rs accId' n' h heq => ?_⟩
    · cases v with
      | aarr i es =>
        have hm : sizeOf es + sizeOf t ≤ k := by
          have : sizeOf (AValue.aarr i es) = 1 + sizeOf i + sizeOf es := by
            simp
          omega
        simp only [_deepOmitAllocR] at heq
        cases hq : _deepOmitAllocArrR es t (n + 1) with
        | error e => rw [hq, except_bind_error] at heq; cases heq
        | ok pair =>
          rcases pair with ⟨rs1, n1⟩
          rw [hq, except_bind_ok] at heq
          simp only [except_pure_eq_ok, Except.ok.injEq, Prod.mk.injEq] at heq
          obtain ⟨rfl, rfl⟩ := heq
          obtain ⟨h1, h2⟩ := ihArr es t (n + 1) rs1 n1 hm hq
          refine ⟨by omega, ?_⟩
          intro i hi
          simp only [containerIds, List.mem_cons] at hi
          rcases hi with rfl | hi
          · omega
          · have := h2 i hi; omega
      | aobj i entries =>
        have hm0 : sizeOf (AValue.aobj i entries) =
            1 + sizeOf i + sizeOf entries := by simp
        simp only [_deepOmitAllocR] at heq
        split at heq
        next e hkept => cases heq
        next kept hkept =>
          have hm : sizeOf kept + sizeOf t ≤ k := by
            have := omitEntriesA_sizeOf_le hkept
            omega
          cases hq : _deepOmitAllocObjR kept t (n + 1) (n + 2) with
          | error e => rw [hq, except_bind_error] at heq; cases heq
          | ok trip =>
            rcases trip with ⟨rs1, accId1, n1⟩
            rw [hq, except_bind_ok] at heq
            simp only [except_pure_eq_ok, Except.ok.injEq, Prod.mk.injEq]
              at heq
            obtain ⟨rfl, rfl⟩ := heq
            obtain ⟨h1, h2, h3⟩ :=
              ihObj kept t (n + 1) (n + 2) rs1 accId1 n1 hm hq
            refine ⟨by omega, ?_⟩
            intro i hi
            simp only [containerIds, List.mem_cons] at hi
            rcases hi with rfl | hi
            · rcases h2 with rfl | h2 <;> omega
            · have := h3 i hi; omega
      | anull =>
        simp only [_deepOmitAllocR, except_pure_eq_ok, Except.ok.injEq,
          Prod.mk.injEq] at heq
        obtain ⟨rfl, rfl⟩ := heq
        simp [containerIds]
      | aundef =>
        simp only [_deepOmitAllocR, except_pure_eq_ok, Except.ok.injEq,
          Prod.mk.injEq] at heq
        obtain ⟨rfl, rfl⟩ := heq
        simp [containerIds]
      | abool b =>
        simp only [_deepOmitAllocR, except_pure_eq_ok, Except.ok.injEq,
          Prod.mk.injEq] at heq
        obtain ⟨rfl, rfl⟩ := heq
        simp [containerIds]
      | anum m =>
        simp only [_deepOmitAllocR, except_pure_eq_ok, Except.ok.injEq,
          Prod.mk.injEq] at heq
        obtain ⟨rfl, rfl⟩ := heq
        simp [containerIds]
      | astr s =>
        simp only [_deepOmitAllocR, except_pure_eq_ok, Except.ok.injEq,
          Prod.mk.injEq] at heq
        obtain ⟨rfl, rfl⟩ := heq
        simp [containerIds]
    · cases es with
      | nil =>
        simp only [_deepOmitAllocArrR, except_pure_eq_ok, Except.ok.injEq,
          Prod.mk.injEq] at heq
        obtain ⟨rfl, rfl⟩ := heq
        simp [containerIdsArr]
      | cons e rest =>
        have hsz : sizeOf (e :: rest) = 1 + sizeOf e + sizeOf rest := by simp
        have hme : sizeOf t + sizeOf e ≤ k := by omega
        have hmr : sizeOf rest + sizeOf t ≤ k := by omega
        simp only [_deepOmitAllocArrR] at heq
        cases hq1 : _deepOmitAllocR t e n with
        | error e1 => rw [hq1, except_bind_error] at heq; cases heq
        | ok pair1 =>
          rcases pair1 with ⟨r1, n1⟩
          rw [hq1, except_bind_ok] at heq
          cases hq2 : _deepOmitAllocArrR rest t n1 with
          | error e2 => rw [hq2, except_bind_error] at heq; cases heq
          | ok pair2 =>
            rcases pair2 with ⟨rs2, n2⟩
            rw [hq2, except_bind_ok] at heq
            simp only [except_pure_eq_ok, Except.ok.injEq, Prod.mk.injEq]
              at heq
            obtain ⟨rfl, rfl⟩ := heq
            obtain ⟨h1, h2⟩ := ihV t e n r1 n1 hme hq1
            obtain ⟨h3, h4⟩ := ihArr rest t n1 rs2 n2 hmr hq2
            refine ⟨by omega, ?_⟩
            intro i hi
            simp only [containerIdsArr, List.mem_append] at hi
            rcases hi with hi | hi
            · exact h2 i hi
            · have := h4 i hi; omega
    · cases entries with
      | nil =>
        simp only [_deepOmitAllocObjR, except_pure_eq_ok, Except.ok.injEq,
          Prod.mk.injEq] at heq
        obtain ⟨rfl, rfl, rfl⟩ := heq
        simp [containerIdsObj]
      | cons p rest =>
        rcases p with ⟨key, v⟩
        have hsz : sizeOf ((key, v) :: rest) =
            1 + (1 + sizeOf key + sizeOf v) + sizeOf rest := by simp
        have hme : sizeOf v + sizeOf t ≤ k := by omega
        have hmr : sizeOf rest + sizeOf t ≤ k := by omega
        simp only [_deepOmitAllocObjR] at heq
        cases hq1 : _deepOmitAllocR v t n with
        | error e1 => rw [hq1, except_bind_error] at heq; cases heq
        | ok pair1 =>
          rcases pair1 with ⟨r1, n1⟩
          rw [hq1, except_bind_ok] at heq
          cases hq2 : _deepOmitAllocObjR rest t n1 (n1 + 1) with
          | error e2 => rw [hq2, except_bind_error] at heq; cases heq
          | ok trip2 =>
            rcases trip2 with ⟨rs2, accId2, n2⟩
            rw [hq2, except_bind_ok] at heq
            simp only [except_pure_eq_ok, Except.ok.injEq, Prod.mk.injEq]
              at heq
            obtain ⟨rfl, rfl, rfl⟩ := heq
            obtain ⟨h1, h2⟩ := ihV v t n r1 n1 hme hq1
            obtain ⟨h3, h4, h5⟩ := ihObj rest t n1 (n1 + 1) rs2 accId2 n2
              hmr hq2
            refine ⟨by omega, ?_, ?_⟩
            · rcases h4 with rfl | h4 <;> omega
            · intro i hi
              simp only [containerIdsObj, List.mem_append] at hi
              rcases hi with hi | hi
              · exact h2 i hi
              · have := h5 i hi; omega

end Remeda

/-- C9 (confirmed): structural-copy invariant.  If every container of the
inputs was allocated before the call (identity below the counter `n`), then
no container of either implementation's output is a container of the input
value or of the key filter: every mapping and sequence in the output is
freshly constructed during the call (scalars, which carry no identity, pass
through by plain assignment). -/
theorem c9_structural_copy (v t : AValue) (n : Nat)
    (hv : ∀ i ∈ containerIds v, i < n) (ht : ∀ i ∈ containerIds t, i < n) :
    (∀ i ∈ containerIds (DeepOmitTs._deepOmitAlloc v t n).1,
      i ∉ containerIds v ∧ i ∉ containerIds t)
    ∧ ∀ (r : AValue) (n' : Nat), Remeda._deepOmitAllocR v t n = .ok (r, n') →
      ∀ i ∈ containerIds r, i ∉ containerIds v ∧ i ∉ containerIds t := by
  constructor
  · intro i hi
    have h1 := ((DeepOmitTs._deepOmitAlloc_fresh (sizeOf v + sizeOf t)).1
      v t n le_rfl).2 i hi
    constructor
    · intro hmem; have := hv i hmem; omega
    · intro hmem; have := ht i hmem; omega
  · intro r n' heq i hi
    have h1 := ((Remeda._deepOmitAllocR_fresh (sizeOf v + sizeOf t)).1
      v t n r n' le_rfl heq).2 i hi
    constructor
    · intro hmem; have := hv i hmem; omega
    · intro hmem; have := ht i hmem; omega

/-- Witness for `c9_structural_copy` at the concrete input
`{a: [5]}` (containers 0 and 1), filter `["a"]` (container 2), counter 3. -/
theorem c9_structural_copy_witness :
    ((∀ i ∈ containerIds (.aobj 0 [("a", .aarr 1 [.anum 5])]), i < 3)
      ∧ (∀ i ∈ containerIds (.aarr 2 [.astr "a"]), i < 3))
    ∧ ((∀ i ∈ containerIds
          (DeepOmitTs._deepOmitAlloc (.aobj 0 [("a", .aarr 1 [.anum 5])])
            (.aarr 2 [.astr "a"]) 3).1,
        i ∉ containerIds (AValue.aobj 0 [("a", .aarr 1 [.anum 5])])
        ∧ i ∉ containerIds (AValue.aarr 2 [.astr "a"]))
      ∧ ∀ (r : AValue) (n' : Nat),
        Remeda._deepOmitAllocR (.aobj 0 [("a", .aarr 1 [.anum 5])])
          (.aarr 2 [.astr "a"]) 3 = .ok (r, n') →
        ∀ i ∈ containerIds r,
          i ∉ containerIds (AValue.aobj 0 [("a", .aarr 1 [.anum 5])])
          ∧ i ∉ containerIds (AValue.aarr 2 [.astr "a"])) := by
  refine ⟨⟨?_, ?_⟩, c9_structural_copy _ _ 3 ?_ ?_⟩ <;>
    (intro i hi
     simp [containerIds, containerIdsObj, containerIdsArr] at hi
     omega)
